import Mathlib

/-!
Shallow embedding of `src/index_calculator.py` (class `IndexCalculator`) of the
World_Happiness_Analysis repository, together with proofs checking the
natural-language specification against it.

Modelling choices:
* A pandas `DataFrame` is modelled column-wise as a `Table`: an association
  list from column name to the column's list of values, in column order.
  Row `i` of the table is the family of `i`-th entries of the columns.
* Cell values are rationals (`ℚ`).  String-valued columns such as `Country`
  and `Region` carry opaque numeric codes: no claim depends on their values,
  only on their presence and per-row association.
* Stateful method calls (`self.df`, `self.index_df`, the implicit
  "ensure previous stage ran" checks) are modelled by explicit function
  composition: each stage is a function of the previous stage's output,
  exactly the dataflow of the Python methods.
* Fallible Python operations are modelled with `Option`: dictionary
  comprehension `{k: v / total ...}` raises `ZeroDivisionError` when
  `total == 0` and the dict is non-empty, and `df[cols]` raises `KeyError`
  when a requested column is missing; both become `none`.
-/

abbrev Col := List ℚ

abbrev Table := List (String × Col)

/-- The column names of a table, in order (pandas `df.columns`). -/
def colNames (df : Table) : List String := df.map (fun p => p.1)

/-- Membership test `name in df.columns`. -/
def hasCol (df : Table) (name : String) : Bool :=
  df.any (fun p => decide (p.1 = name))

/-- Column lookup `df[name]`; `none` when the column is absent. -/
def getCol (df : Table) (name : String) : Option Col :=
  (df.find? (fun p => decide (p.1 = name))).map (fun p => p.2)

/-- Column assignment `df[name] = c`: pandas overwrites an existing column in
place and appends a fresh one at the end. -/
def setCol (df : Table) (name : String) (c : Col) : Table :=
  if hasCol df name then
    df.map (fun p => if p.1 = name then (name, c) else p)
  else
    df ++ [(name, c)]

/-- Number of rows (pandas tables are rectangular; we read the first column). -/
def nRows (df : Table) : ℕ :=
  match df with
  | [] => 0
  | c :: _ => c.2.length

/-- `x.min()` of a column (the value is only used on non-empty columns;
on an empty column pandas yields NaN and the `mx - mn > 0` test is false,
which our junk value 0 reproduces). -/
def colMin (x : Col) : ℚ :=
  match x with
  | [] => 0
  | v :: vs => vs.foldl min v

/-- `x.max()` of a column, same conventions as `colMin`. -/
def colMax (x : Col) : ℚ :=
  match x with
  | [] => 0
  | v :: vs => vs.foldl max v

/-- Body of the `normalize_min_max` branch for one present indicator column:
`(x-mn)/(mx-mn)` when `mx - mn > 0`, otherwise the scalar `0.5` broadcast
over all rows. -/
def normCol (x : Col) : Col :=
  let mn := colMin x
  let mx := colMax x
  if mx - mn > 0 then x.map (fun v => (v - mn) / (mx - mn))
  else x.map (fun _ => (1 : ℚ) / 2)

/-- One iteration of the `for ind in self.indicators` loop of
`normalize_min_max`: skip when the column is absent, otherwise add the
`<ind>_normalized` column. -/
def normStep (acc : Table) (ind : String) : Table :=
  match getCol acc ind with
  | some x => setCol acc (ind ++ "_normalized") (normCol x)
  | none => acc

/-- `IndexCalculator.normalize_min_max`: fold the loop over the indicator
list, starting from (a copy of) the input table. -/
def normalizeMinMax (df : Table) (indicators : List String) : Table :=
  indicators.foldl normStep df

/-- `self.weights.get(ind, 0)`: dictionary lookup with default 0. -/
def weightOf (w : List (String × ℚ)) (ind : String) : ℚ :=
  match w.find? (fun p => decide (p.1 = ind)) with
  | some p => p.2
  | none => 0

/-- `sum(weights.values())`. -/
def sumWeights (w : List (String × ℚ)) : ℚ := (w.map (fun p => p.2)).sum

/-- `IndexCalculator.set_weights`: renormalize when the sum deviates from 1
by more than 0.01, otherwise store unchanged.  The dict comprehension
`{k: v / total for k, v in weights.items()}` raises `ZeroDivisionError`
when `total == 0` and the mapping is non-empty; that failure is `none`. -/
def setWeights (w : List (String × ℚ)) : Option (List (String × ℚ)) :=
  if |sumWeights w - 1| > 1 / 100 then
    if sumWeights w = 0 ∧ w ≠ [] then none
    else some (w.map (fun p => (p.1, p.2 / sumWeights w)))
  else some w

/-- One iteration of the `score += df[col] * self.weights.get(ind, 0)` loop of
`calculate_composite_index`: skip when `<ind>_normalized` is absent. -/
def scoreStep (d : Table) (w : List (String × ℚ)) (s : Col) (ind : String) : Col :=
  match getCol d (ind ++ "_normalized") with
  | some x => List.zipWith (fun a b => a + b) s (x.map (fun v => v * weightOf w ind))
  | none => s

/-- The accumulated `score` series of `calculate_composite_index` (the Python
scalar 0 broadcast over the rows is the all-zero column). -/
def compositeScore (d : Table) (indicators : List String) (w : List (String × ℚ)) : Col :=
  indicators.foldl (scoreStep d w) (List.replicate (nRows d) 0)

/-- The `Composite_Happiness_Index` column: `score * 10`, computed on the
normalized table. -/
def compositeChi (df : Table) (indicators : List String) (w : List (String × ℚ)) : Col :=
  (compositeScore (normalizeMinMax df indicators) indicators w).map (fun v => v * 10)

/-- `Series.rank(ascending=False, method='min').astype(int)`: the rank of a
value is 1 plus the number of values strictly greater than it; with
`method='min'` the ranks are integral, so they live in `ℕ` directly. -/
def rankMinDesc (xs : Col) : List ℕ :=
  xs.map (fun v => 1 + xs.countP (fun u => decide (v < u)))

/-- The `Composite_Rank` column of the pipeline, as natural numbers. -/
def compositeRank (df : Table) (indicators : List String) (w : List (String × ℚ)) : List ℕ :=
  rankMinDesc (compositeChi df indicators w)

/-- `IndexCalculator.calculate_composite_index`: normalize (the `index_df is
None` guard), accumulate the weighted score, add the index column scaled to
0-10, then add the integer rank column. -/
def calculateCompositeIndex (df : Table) (indicators : List String)
    (w : List (String × ℚ)) : Table :=
  let d := normalizeMinMax df indicators
  let chi := (compositeScore d indicators w).map (fun v => v * 10)
  let d1 := setCol d "Composite_Happiness_Index" chi
  setCol d1 "Composite_Rank" ((rankMinDesc chi).map (fun n => (n : ℚ)))

/-- Column read used inside `compare_with_original` after presence was
established (defaulting is never reached on the paths where it is used). -/
def colOf (df : Table) (name : String) : Col := (getCol df name).getD []

/-- `result.sort_values('Composite_Happiness_Index', ascending=False)`:
reorder the rows of every column by a descending order of the index column.
pandas' default sort kind leaves the order among exact ties unspecified;
this model fixes one concrete descending order (no claim below depends on
the tie order). -/
def sortByCompositeDesc (t : Table) : Table :=
  let key := colOf t "Composite_Happiness_Index"
  let perm := List.insertionSort
    (fun i j => key.getD j 0 ≤ key.getD i 0) (List.range key.length)
  t.map (fun p => (p.1, perm.map (fun i => p.2.getD i 0)))

/-- `IndexCalculator.compare_with_original`, applied to the composite table:
`df[cols]` raises `KeyError` (here `none`) when any of the five selected
columns is missing; `Original_Rank` and `Rank_Difference` are added only
when `Happiness Rank` exists; `Score_Difference` is always added; the rows
are returned sorted descending by the composite index. -/
def compareWithOriginal (df : Table) : Option Table :=
  let cols := ["Country", "Region", "Happiness Score",
               "Composite_Happiness_Index", "Composite_Rank"]
  if cols.all (fun c => hasCol df c) then
    let result : Table := cols.map (fun n => (n, colOf df n))
    let result2 :=
      if hasCol df "Happiness Rank" then
        let orig := colOf df "Happiness Rank"
        setCol (setCol result "Original_Rank" orig) "Rank_Difference"
          (List.zipWith (fun a b => a - b) orig (colOf df "Composite_Rank"))
      else result
    let result3 := setCol result2 "Score_Difference"
      (List.zipWith (fun a b => a - b)
        (colOf df "Composite_Happiness_Index") (colOf df "Happiness Score"))
    some (sortByCompositeDesc result3)
  else none

/-- The composite index column produced after `set_weights(w)` followed by
the pipeline; `none` when `set_weights` itself raises. -/
def compositeWithWeights (df : Table) (indicators : List String)
    (w : List (String × ℚ)) : Option Col :=
  (setWeights w).map (fun sw => compositeChi df indicators sw)

/-! ### Basic lemmas about column lookup and assignment -/

lemma getCol_cons_of_eq (p : String × Col) (t : Table) (m : String)
    (h : p.1 = m) : getCol (p :: t) m = some p.2 := by
  unfold getCol
  rw [List.find?_cons_of_pos _ (by simpa using h)]
  rfl

lemma getCol_cons_of_ne (p : String × Col) (t : Table) (m : String)
    (h : ¬ p.1 = m) : getCol (p :: t) m = getCol t m := by
  unfold getCol
  rw [List.find?_cons_of_neg _ (by simpa using h)]

lemma getCol_none_iff (df : Table) (n : String) :
    getCol df n = none ↔ hasCol df n = false := by
  induction df with
  | nil => simp [getCol, hasCol]
  | cons p t ih =>
    by_cases h : p.1 = n
    · simp [getCol, hasCol, List.find?_cons_of_pos, h]
    · rw [getCol_cons_of_ne p t n h]
      have hh : hasCol (p :: t) n = hasCol t n := by simp [hasCol, h]
      rw [hh]
      exact ih

lemma getCol_some_of_hasCol (df : Table) (n : String) (h : hasCol df n = true) :
    ∃ c, getCol df n = some c := by
  rcases he : getCol df n with _ | c
  · rw [getCol_none_iff] at he
    rw [he] at h
    cases h
  · exact ⟨c, rfl⟩

lemma getCol_replace_self (df : Table) (n : String) (c : Col)
    (h : hasCol df n = true) :
    getCol (df.map (fun p => if p.1 = n then (n, c) else p)) n = some c := by
  induction df with
  | nil => simp [hasCol] at h
  | cons p t ih =>
    by_cases hp : p.1 = n
    · simp [getCol, hp, List.find?_cons_of_pos]
    · have ht : hasCol t n = true := by
        simpa [hasCol, hp] using h
      simpa [getCol, hp, List.find?_cons_of_neg] using ih ht

lemma getCol_replace_ne (df : Table) (n : String) (c : Col) (m : String)
    (h : m ≠ n) :
    getCol (df.map (fun p => if p.1 = n then (n, c) else p)) m = getCol df m := by
  induction df with
  | nil => simp [getCol]
  | cons p t ih =>
    by_cases hp : p.1 = n
    · have hm : ¬ p.1 = m := by
        rw [hp]; exact fun hnm => h hnm.symm
      simp only [List.map_cons, if_pos hp]
      rw [getCol, getCol, List.find?_cons_of_neg _ (by simpa using fun hnm => h hnm.symm),
        List.find?_cons_of_neg _ (by simpa using hm)]
      exact ih
    · simp only [List.map_cons, if_neg hp]
      by_cases hm : p.1 = m
      · rw [getCol, getCol, List.find?_cons_of_pos _ (by simpa using hm),
          List.find?_cons_of_pos _ (by simpa using hm)]
      · rw [getCol, getCol, List.find?_cons_of_neg _ (by simpa using hm),
          List.find?_cons_of_neg _ (by simpa using hm)]
        exact ih

lemma getCol_append_single_self (df : Table) (n : String) (c : Col)
    (h : hasCol df n = false) :
    getCol (df ++ [(n, c)]) n = some c := by
  induction df with
  | nil => exact getCol_cons_of_eq (n, c) [] n rfl
  | cons p t ih =>
    have hp : ¬ p.1 = n := by
      intro he
      simp [hasCol, he] at h
    have ht : hasCol t n = false := by
      simpa [hasCol, hp] using h
    rw [List.cons_append, getCol_cons_of_ne p _ n hp]
    exact ih ht

lemma getCol_append_single_ne (df : Table) (n : String) (c : Col) (m : String)
    (h : m ≠ n) :
    getCol (df ++ [(n, c)]) m = getCol df m := by
  induction df with
  | nil =>
    rw [List.nil_append, getCol_cons_of_ne (n, c) [] m (fun he => h he.symm)]
  | cons p t ih =>
    by_cases hm : p.1 = m
    · rw [List.cons_append, getCol_cons_of_eq p _ m hm, getCol_cons_of_eq p t m hm]
    · rw [List.cons_append, getCol_cons_of_ne p _ m hm, getCol_cons_of_ne p t m hm]
      exact ih

lemma getCol_setCol_self (df : Table) (n : String) (c : Col) :
    getCol (setCol df n c) n = some c := by
  unfold setCol
  by_cases h : hasCol df n
  · rw [if_pos h]
    exact getCol_replace_self df n c h
  · rw [if_neg h]
    exact getCol_append_single_self df n c (by simpa using h)

lemma getCol_setCol_ne (df : Table) (n : String) (c : Col) (m : String)
    (h : m ≠ n) :
    getCol (setCol df n c) m = getCol df m := by
  unfold setCol
  by_cases hc : hasCol df n
  · rw [if_pos hc]
    exact getCol_replace_ne df n c m h
  · rw [if_neg hc]
    exact getCol_append_single_ne df n c m h

lemma hasCol_setCol_ne (df : Table) (n : String) (c : Col) (m : String)
    (h : m ≠ n) :
    hasCol (setCol df n c) m = hasCol df m := by
  rcases hx : hasCol df m with _ | _
  · have := (getCol_none_iff df m).2 hx
    have h2 : getCol (setCol df n c) m = none := by
      rw [getCol_setCol_ne df n c m h]; exact this
    exact (getCol_none_iff _ m).1 h2
  · rcases getCol_some_of_hasCol df m hx with ⟨cc, hcc⟩
    rcases hy : hasCol (setCol df n c) m with _ | _
    · have := (getCol_none_iff (setCol df n c) m).2 hy
      rw [getCol_setCol_ne df n c m h, hcc] at this
      cases this
    · rfl

lemma str_append_right_cancel (a b t : String) (h : a ++ t = b ++ t) : a = b := by
  have hd : a.data ++ t.data = b.data ++ t.data := by
    rw [← String.data_append, ← String.data_append, h]
  exact String.ext (List.append_cancel_right hd)

/-! ### Lemmas about column minimum and maximum -/

lemma foldl_min_le_init (vs : List ℚ) (v : ℚ) : vs.foldl min v ≤ v := by
  induction vs generalizing v with
  | nil => exact le_refl v
  | cons u t ih => exact le_trans (ih (min v u)) (min_le_left v u)

lemma foldl_min_le_mem (vs : List ℚ) (v u : ℚ) (hu : u ∈ vs) :
    vs.foldl min v ≤ u := by
  induction vs generalizing v with
  | nil => cases hu
  | cons w t ih =>
    rcases List.mem_cons.mp hu with he | ht
    · subst he
      exact le_trans (foldl_min_le_init t (min v u)) (min_le_right v u)
    · exact ih (min v w) ht

lemma init_le_foldl_max (vs : List ℚ) (v : ℚ) : v ≤ vs.foldl max v := by
  induction vs generalizing v with
  | nil => exact le_refl v
  | cons u t ih => exact le_trans (le_max_left v u) (ih (max v u))

lemma mem_le_foldl_max (vs : List ℚ) (v u : ℚ) (hu : u ∈ vs) :
    u ≤ vs.foldl max v := by
  induction vs generalizing v with
  | nil => cases hu
  | cons w t ih =>
    rcases List.mem_cons.mp hu with he | ht
    · subst he
      exact le_trans (le_max_right v u) (init_le_foldl_max t (max v u))
    · exact ih (max v w) ht

lemma colMin_le_mem (x : Col) (v : ℚ) (hv : v ∈ x) : colMin x ≤ v := by
  cases x with
  | nil => cases hv
  | cons u t =>
    rcases List.mem_cons.mp hv with he | ht
    · subst he
      exact foldl_min_le_init t v
    · exact foldl_min_le_mem t u v ht

lemma mem_le_colMax (x : Col) (v : ℚ) (hv : v ∈ x) : v ≤ colMax x := by
  cases x with
  | nil => cases hv
  | cons u t =>
    rcases List.mem_cons.mp hv with he | ht
    · subst he
      exact init_le_foldl_max t v
    · exact mem_le_foldl_max t u v ht

lemma colMin_le_colMax (x : Col) : colMin x ≤ colMax x := by
  cases x with
  | nil => exact le_refl 0
  | cons u t =>
    exact le_trans (foldl_min_le_init t u) (init_le_foldl_max t u)

/-! ### The normalization fold -/

lemma getCol_foldl_normStep_preserve (inds : List String) (acc : Table)
    (nm : String) (h : ∀ j ∈ inds, j ++ "_normalized" ≠ nm) :
    getCol (inds.foldl normStep acc) nm = getCol acc nm := by
  induction inds generalizing acc with
  | nil => rfl
  | cons j rest ih =>
    rw [List.foldl_cons, ih _ (fun k hk => h k (List.mem_cons_of_mem j hk))]
    unfold normStep
    cases hg : getCol acc j with
    | none => rfl
    | some x =>
      exact getCol_setCol_ne acc _ _ nm (Ne.symm (h j (List.mem_cons_self j rest)))

lemma getCol_normalizeMinMax_of_present (df : Table) (inds : List String)
    (ind : String) (x : Col) (hnd : inds.Nodup) (hmem : ind ∈ inds)
    (hx : getCol df ind = some x)
    (hshape : ∀ j ∈ inds, j ++ "_normalized" ≠ ind) :
    getCol (normalizeMinMax df inds) (ind ++ "_normalized") = some (normCol x) := by
  induction inds generalizing df with
  | nil => cases hmem
  | cons j rest ih =>
    show getCol (rest.foldl normStep (normStep df j)) (ind ++ "_normalized")
        = some (normCol x)
    by_cases hj : j = ind
    · subst hj
      have hstep : normStep df j = setCol df (j ++ "_normalized") (normCol x) := by
        unfold normStep
        rw [hx]
      have hrest : j ∉ rest := (List.nodup_cons.mp hnd).1
      have hpres : ∀ k ∈ rest, k ++ "_normalized" ≠ j ++ "_normalized" := by
        intro k hk he
        exact hrest (str_append_right_cancel k j _ he ▸ hk)
      rw [hstep, getCol_foldl_normStep_preserve rest _ _ hpres]
      exact getCol_setCol_self df _ _
    · have hmem' : ind ∈ rest := by
        rcases List.mem_cons.mp hmem with he | ht
        · exact absurd he.symm hj
        · exact ht
      have hx' : getCol (normStep df j) ind = some x := by
        unfold normStep
        cases hg : getCol df j with
        | none => exact hx
        | some y =>
          rw [getCol_setCol_ne df _ _ ind (Ne.symm (hshape j (List.mem_cons_self j rest)))]
          exact hx
      exact ih (normStep df j) (List.nodup_cons.mp hnd).2 hmem' hx'
        (fun k hk => hshape k (List.mem_cons_of_mem j hk))

/-- C1: for every table and every indicator of the configured list present as
a column, `normalize_min_max` adds the `<indicator>_normalized` column; its
value in each row is `(value - min) / (max - min)` over that column, except
that when `max == min` (zero variance, including the single-row case) every
row gets exactly `0.5`; in all cases every normalized value lies in `[0,1]`.
The hypotheses ask that the indicator list has no duplicates and that no
configured indicator name is literally `<other indicator>_normalized`, which
rules out name collisions between source columns and the added columns. -/
theorem normalize_min_max_contract (df : Table) (inds : List String)
    (ind : String) (x : Col) (hnd : inds.Nodup) (hmem : ind ∈ inds)
    (hx : getCol df ind = some x)
    (hshape : ∀ j ∈ inds, j ++ "_normalized" ≠ ind) :
    getCol (normalizeMinMax df inds) (ind ++ "_normalized") = some (normCol x)
    ∧ (colMin x ≠ colMax x →
        normCol x = x.map (fun v => (v - colMin x) / (colMax x - colMin x)))
    ∧ (colMin x = colMax x → normCol x = x.map (fun _ => (1 : ℚ) / 2))
    ∧ ∀ v ∈ normCol x, 0 ≤ v ∧ v ≤ 1 := by
  refine ⟨getCol_normalizeMinMax_of_present df inds ind x hnd hmem hx hshape,
    ?_, ?_, ?_⟩
  · intro hne
    have hpos : colMax x - colMin x > 0 :=
      sub_pos.mpr (lt_of_le_of_ne (colMin_le_colMax x) hne)
    unfold normCol
    rw [if_pos hpos]
  · intro heq
    have hnpos : ¬ colMax x - colMin x > 0 := by
      rw [heq]
      simp
    unfold normCol
    rw [if_neg hnpos]
  · intro v hv
    unfold normCol at hv
    by_cases hpos : colMax x - colMin x > 0
    · rw [if_pos hpos] at hv
      rcases List.mem_map.mp hv with ⟨u, hu, he⟩
      subst he
      constructor
      · exact div_nonneg (sub_nonneg.mpr (colMin_le_mem x u hu)) (le_of_lt hpos)
      · exact (div_le_one hpos).mpr (sub_le_sub_right (mem_le_colMax x u hu) _)
    · rw [if_neg hpos] at hv
      rcases List.mem_map.mp hv with ⟨u, hu, he⟩
      subst he
      norm_num

/-- Witness for C1 at the two-row table with a single indicator column. -/
theorem normalize_min_max_contract_witness :
    (["GDP"].Nodup ∧ "GDP" ∈ ["GDP"]
      ∧ getCol [("GDP", [1, 2])] "GDP" = some [1, 2]
      ∧ ∀ j ∈ ["GDP"], j ++ "_normalized" ≠ "GDP")
    ∧ (getCol (normalizeMinMax [("GDP", [1, 2])] ["GDP"]) ("GDP" ++ "_normalized")
          = some (normCol [1, 2])
      ∧ (colMin [1, 2] ≠ colMax [1, 2] →
          normCol [1, 2] = List.map
            (fun v => (v - colMin [1, 2]) / (colMax [1, 2] - colMin [1, 2])) [1, 2])
      ∧ (colMin [1, 2] = colMax [1, 2] →
          normCol [1, 2] = List.map (fun _ => (1 : ℚ) / 2) [1, 2])
      ∧ ∀ v ∈ normCol [1, 2], 0 ≤ v ∧ v ≤ 1) :=
  ⟨⟨by decide, by decide, by with_unfolding_all decide, by decide⟩,
    normalize_min_max_contract [("GDP", [1, 2])] ["GDP"] "GDP" [1, 2]
      (by decide) (by decide) (by with_unfolding_all decide) (by decide)⟩

/-! ### Weight setting -/

/-- C2 counterexample: the all-zero mapping `{GDP: 0.0, Health: 0.0}` has sum
0, deviating from 1 by more than 0.01, yet nothing is stored: the
renormalizing dict comprehension divides by zero and raises
`ZeroDivisionError` (modelled as `none`), contradicting the claim that every
such mapping is stored after division by its sum. -/
theorem set_weights_zero_sum_raises :
    |sumWeights [("GDP", (0 : ℚ)), ("Health", 0)] - 1| > 1 / 100
    ∧ setWeights [("GDP", (0 : ℚ)), ("Health", 0)] = none := by
  with_unfolding_all decide

lemma setWeights_of_sum_ne_zero (w : List (String × ℚ)) (h : sumWeights w ≠ 0) :
    setWeights w =
      some (if |sumWeights w - 1| > 1 / 100
            then w.map (fun p => (p.1, p.2 / sumWeights w)) else w) := by
  unfold setWeights
  by_cases hc : |sumWeights w - 1| > 1 / 100
  · rw [if_pos hc, if_pos hc, if_neg (fun hz => h hz.1)]
  · rw [if_neg hc, if_neg hc]

/-- C2 amended: for every weight mapping whose value sum is nonzero,
`set_weights` divides every weight by the sum when the sum deviates from 1.0
by more than 0.01, and stores the mapping unchanged otherwise. -/
theorem set_weights_contract (w : List (String × ℚ)) (h : sumWeights w ≠ 0) :
    setWeights w =
      some (if |sumWeights w - 1| > 1 / 100
            then w.map (fun p => (p.1, p.2 / sumWeights w)) else w) :=
  setWeights_of_sum_ne_zero w h

/-- Witness for C2 at the spec's scenario `{GDP: 0.6, Health: 0.6}` (sum 1.2),
stored as `{GDP: 0.5, Health: 0.5}`. -/
theorem set_weights_contract_witness :
    sumWeights [("GDP", (3 : ℚ)/5), ("Health", 3/5)] ≠ 0
    ∧ setWeights [("GDP", (3 : ℚ)/5), ("Health", 3/5)]
        = some [("GDP", 1/2), ("Health", 1/2)] :=
  ⟨by with_unfolding_all decide,
    (set_weights_contract [("GDP", (3 : ℚ)/5), ("Health", 3/5)]
        (by with_unfolding_all decide)).trans (by with_unfolding_all decide)⟩

lemma sumWeights_smul (c : ℚ) (w : List (String × ℚ)) :
    sumWeights (w.map (fun p => (p.1, c * p.2))) = c * sumWeights w := by
  unfold sumWeights
  induction w with
  | nil => simp
  | cons p t ih =>
    simp only [List.map_cons, List.sum_cons, ih]
    ring

/-- The three-row table of the worked scenario in the spec. -/
def scenarioDf : Table :=
  [("Happiness Score", [15/2, 6, 4]), ("GDP", [3/2, 1, 1/2])]

/-! ### Missing indicators -/

lemma normalize_keeps_absent (inds : List String) (acc : Table) (ind : String)
    (hshape : ∀ j ∈ inds, j ++ "_normalized" ≠ ind)
    (h1 : hasCol acc ind = false)
    (h2 : hasCol acc (ind ++ "_normalized") = false) :
    hasCol (inds.foldl normStep acc) ind = false
    ∧ hasCol (inds.foldl normStep acc) (ind ++ "_normalized") = false := by
  induction inds generalizing acc with
  | nil => exact ⟨h1, h2⟩
  | cons j rest ih =>
    rw [List.foldl_cons]
    have hshape' : ∀ k ∈ rest, k ++ "_normalized" ≠ ind :=
      fun k hk => hshape k (List.mem_cons_of_mem j hk)
    cases hg : getCol acc j with
    | none =>
      have : normStep acc j = acc := by
        unfold normStep
        rw [hg]
      rw [this]
      exact ih acc hshape' h1 h2
    | some x =>
      have hji : j ≠ ind := by
        intro he
        subst he
        rw [(getCol_none_iff acc j).2 h1] at hg
        cases hg
      have hstep : normStep acc j = setCol acc (j ++ "_normalized") (normCol x) := by
        unfold normStep
        rw [hg]
      rw [hstep]
      apply ih
      · exact hshape'
      · rw [hasCol_setCol_ne acc _ _ ind (Ne.symm (hshape j (List.mem_cons_self j rest)))]
        exact h1
      · rw [hasCol_setCol_ne acc _ _ (ind ++ "_normalized")
          (fun he => hji (str_append_right_cancel ind j _ he).symm)]
        exact h2

lemma foldl_id_filter {α β : Type} [DecidableEq α] (f : β → α → β) (l : List α)
    (a : α) (hid : ∀ b, f b a = b) (init : β) :
    l.foldl f init = (l.filter (fun x => decide (x ≠ a))).foldl f init := by
  induction l generalizing init with
  | nil => rfl
  | cons x t ih =>
    by_cases hx : x = a
    · subst hx
      rw [List.foldl_cons, hid init, List.filter_cons, if_neg (by simp)]
      exact ih init
    · rw [List.foldl_cons, List.filter_cons, if_pos (by simpa using hx), List.foldl_cons]
      exact ih (f init x)

/-- C5: an indicator in the configured list that is not a column of the table
causes no error (all stages are total on it): `normalize_min_max` produces no
`<indicator>_normalized` column for it, and the score accumulation of
`calculate_composite_index` is unchanged when the indicator is removed from
the list — it contributes exactly zero — even when a weight was configured
for it (`w` is arbitrary and may mention `ind`). -/
theorem missing_indicator_skipped (df : Table) (inds : List String)
    (w : List (String × ℚ)) (ind : String) (_hmem : ind ∈ inds)
    (habs : hasCol df ind = false)
    (habs2 : hasCol df (ind ++ "_normalized") = false)
    (hshape : ∀ j ∈ inds, j ++ "_normalized" ≠ ind) :
    getCol (normalizeMinMax df inds) (ind ++ "_normalized") = none
    ∧ compositeScore (normalizeMinMax df inds) inds w
        = compositeScore (normalizeMinMax df inds)
            (inds.filter (fun j => decide (j ≠ ind))) w := by
  have hkeep := normalize_keeps_absent inds df ind hshape habs habs2
  have hnone : getCol (normalizeMinMax df inds) (ind ++ "_normalized") = none :=
    (getCol_none_iff _ _).2 hkeep.2
  refine ⟨hnone, ?_⟩
  unfold compositeScore
  apply foldl_id_filter
  intro s
  unfold scoreStep
  rw [hnone]

/-- Witness for C5: indicator `GDP` configured and weighted but absent from
the single-column table. -/
theorem missing_indicator_skipped_witness :
    ("GDP" ∈ ["GDP"]
      ∧ hasCol [("Happiness Score", [5])] "GDP" = false
      ∧ hasCol [("Happiness Score", [5])] ("GDP" ++ "_normalized") = false
      ∧ ∀ j ∈ ["GDP"], j ++ "_normalized" ≠ "GDP")
    ∧ (getCol (normalizeMinMax [("Happiness Score", [5])] ["GDP"])
          ("GDP" ++ "_normalized") = none
      ∧ compositeScore (normalizeMinMax [("Happiness Score", [5])] ["GDP"])
            ["GDP"] [("GDP", 1)]
          = compositeScore (normalizeMinMax [("Happiness Score", [5])] ["GDP"])
              (["GDP"].filter (fun j => decide (j ≠ "GDP"))) [("GDP", 1)]) :=
  ⟨⟨by decide, by decide, by decide, by decide⟩,
    missing_indicator_skipped [("Happiness Score", [5])] ["GDP"] [("GDP", 1)]
      "GDP" (by decide) (by decide) (by decide) (by decide)⟩

/-! ### Ranking -/

lemma rank_getD (xs : Col) (i : ℕ) (hi : i < xs.length) :
    (rankMinDesc xs).getD i 0
      = 1 + xs.countP (fun u => decide (xs.getD i 0 < u)) := by
  unfold rankMinDesc
  rw [List.getD_eq_getElem?_getD, List.getElem?_map,
    List.getElem?_eq_getElem hi, List.getD_eq_getElem?_getD,
    List.getElem?_eq_getElem hi]
  rfl

lemma getD_mem_of_lt (xs : Col) (i : ℕ) (hi : i < xs.length) :
    xs.getD i 0 ∈ xs := by
  rw [List.getD_eq_getElem?_getD, List.getElem?_eq_getElem hi]
  exact List.getElem_mem hi

lemma countP_split {α : Type} (l : List α) (p q r : α → Bool)
    (hpq : ∀ x ∈ l, p x = (q x || r x))
    (hd : ∀ x ∈ l, ¬(q x = true ∧ r x = true)) :
    l.countP p = l.countP q + l.countP r := by
  induction l with
  | nil => rfl
  | cons x t ih =>
    have ht := ih (fun y hy => hpq y (List.mem_cons_of_mem x hy))
      (fun y hy => hd y (List.mem_cons_of_mem x hy))
    rw [List.countP_cons, List.countP_cons, List.countP_cons, ht,
      hpq x (List.mem_cons_self x t)]
    cases hq : q x with
    | true =>
      have hr : r x = false := by
        cases hr : r x with
        | true => exact absurd ⟨hq, hr⟩ (hd x (List.mem_cons_self x t))
        | false => rfl
      rw [hr]
      simp
      omega
    | false =>
      cases hr : r x with
      | true => simp; omega
      | false => simp

lemma countP_lt_countP {α : Type} (l : List α) (p q : α → Bool)
    (hmono : ∀ x ∈ l, p x = true → q x = true)
    (x0 : α) (hx0 : x0 ∈ l) (hq0 : q x0 = true) (hp0 : p x0 = false) :
    l.countP p < l.countP q := by
  have hsplit : l.countP q = l.countP p + l.countP (fun x => q x && !p x) := by
    apply countP_split
    · intro x _
      cases hp : p x with
      | true => simp [hmono x (by assumption) hp, hp]
      | false =>
        cases hq : q x with
        | true => simp [hp, hq]
        | false => simp [hp, hq]
    · intro x _ ⟨h1, h2⟩
      rw [h1] at h2
      simp at h2
  have hpos : 0 < l.countP (fun x => q x && !p x) :=
    List.countP_pos_iff.mpr ⟨x0, hx0, by rw [hq0, hp0]; rfl⟩
  omega

/-- The composite table evaluated: the pipeline is two column assignments on
top of the normalized table. -/
lemma calc_composite_eq (df : Table) (inds : List String)
    (w : List (String × ℚ)) :
    calculateCompositeIndex df inds w
      = setCol (setCol (normalizeMinMax df inds) "Composite_Happiness_Index"
          (compositeChi df inds w)) "Composite_Rank"
          ((rankMinDesc (compositeChi df inds w)).map (fun n => (n : ℚ))) := rfl

lemma getCol_calc_rank (df : Table) (inds : List String)
    (w : List (String × ℚ)) :
    getCol (calculateCompositeIndex df inds w) "Composite_Rank"
      = some ((compositeRank df inds w).map (fun n => (n : ℚ))) := by
  rw [calc_composite_eq]
  exact getCol_setCol_self _ _ _

lemma getCol_calc_chi (df : Table) (inds : List String)
    (w : List (String × ℚ)) :
    getCol (calculateCompositeIndex df inds w) "Composite_Happiness_Index"
      = some (compositeChi df inds w) := by
  rw [calc_composite_eq,
    getCol_setCol_ne _ _ _ "Composite_Happiness_Index" (by decide)]
  exact getCol_setCol_self _ _ _

/-- C9: in every composite table, equal `Composite_Happiness_Index` values get
equal `Composite_Rank` values, a strictly higher index gets a strictly lower
(better) rank, and a row whose index is maximal gets rank 1.  The rank column
is the rational cast of a list of naturals, so all rank values are integers. -/
theorem composite_rank_relational (df : Table) (inds : List String)
    (w : List (String × ℚ)) (i j : ℕ)
    (hi : i < (compositeChi df inds w).length)
    (hj : j < (compositeChi df inds w).length) :
    getCol (calculateCompositeIndex df inds w) "Composite_Rank"
        = some ((compositeRank df inds w).map (fun n => (n : ℚ)))
    ∧ ((compositeChi df inds w).getD i 0 = (compositeChi df inds w).getD j 0 →
        (compositeRank df inds w).getD i 0 = (compositeRank df inds w).getD j 0)
    ∧ ((compositeChi df inds w).getD j 0 < (compositeChi df inds w).getD i 0 →
        (compositeRank df inds w).getD i 0 < (compositeRank df inds w).getD j 0)
    ∧ ((∀ v ∈ compositeChi df inds w, v ≤ (compositeChi df inds w).getD i 0) →
        (compositeRank df inds w).getD i 0 = 1) := by
  refine ⟨getCol_calc_rank df inds w, ?_, ?_, ?_⟩
  · intro he
    unfold compositeRank
    rw [rank_getD _ i hi, rank_getD _ j hj, he]
  · intro hlt
    unfold compositeRank
    rw [rank_getD _ i hi, rank_getD _ j hj]
    have hc := countP_lt_countP (compositeChi df inds w)
      (fun u => decide ((compositeChi df inds w).getD i 0 < u))
      (fun u => decide ((compositeChi df inds w).getD j 0 < u))
      (fun x _ hp => by
        simp only [decide_eq_true_eq] at hp ⊢
        exact lt_trans hlt hp)
      ((compositeChi df inds w).getD i 0) (getD_mem_of_lt _ i hi)
      (by simpa using hlt) (by simp)
    omega
  · intro hmax
    unfold compositeRank
    rw [rank_getD _ i hi]
    have h0 : (compositeChi df inds w).countP
        (fun u => decide ((compositeChi df inds w).getD i 0 < u)) = 0 :=
      List.countP_eq_zero.mpr (fun a ha => by simpa using not_lt.mpr (hmax a ha))
    rw [h0]

/-- Witness for C9 on the worked three-row scenario, rows 0 and 1. -/
theorem composite_rank_relational_witness :
    (0 < (compositeChi scenarioDf ["GDP"] [("GDP", 1)]).length
      ∧ 1 < (compositeChi scenarioDf ["GDP"] [("GDP", 1)]).length)
    ∧ (getCol (calculateCompositeIndex scenarioDf ["GDP"] [("GDP", 1)])
            "Composite_Rank"
          = some ((compositeRank scenarioDf ["GDP"] [("GDP", 1)]).map
              (fun n => (n : ℚ)))
      ∧ ((compositeChi scenarioDf ["GDP"] [("GDP", 1)]).getD 0 0
            = (compositeChi scenarioDf ["GDP"] [("GDP", 1)]).getD 1 0 →
          (compositeRank scenarioDf ["GDP"] [("GDP", 1)]).getD 0 0
            = (compositeRank scenarioDf ["GDP"] [("GDP", 1)]).getD 1 0)
      ∧ ((compositeChi scenarioDf ["GDP"] [("GDP", 1)]).getD 1 0
            < (compositeChi scenarioDf ["GDP"] [("GDP", 1)]).getD 0 0 →
          (compositeRank scenarioDf ["GDP"] [("GDP", 1)]).getD 0 0
            < (compositeRank scenarioDf ["GDP"] [("GDP", 1)]).getD 1 0)
      ∧ ((∀ v ∈ compositeChi scenarioDf ["GDP"] [("GDP", 1)],
            v ≤ (compositeChi scenarioDf ["GDP"] [("GDP", 1)]).getD 0 0) →
          (compositeRank scenarioDf ["GDP"] [("GDP", 1)]).getD 0 0 = 1)) :=
  ⟨⟨by with_unfolding_all decide, by with_unfolding_all decide⟩,
    composite_rank_relational scenarioDf ["GDP"] [("GDP", 1)] 0 1
      (by with_unfolding_all decide) (by with_unfolding_all decide)⟩

/-- A composite table with a tie at the top: normalized GDP `[1, 1, 0]` gives
composite indices `[10, 10, 0]`. -/
def tieDf : Table := [("GDP", [1, 1, 0])]

/-- C3 counterexample: with composite indices `[10, 10, 0]`, the rank column
produced by `rank(method='min')` is `[1, 1, 3]`, not the dense `[1, 1, 2]`:
the distinct value following the two-way tie group at rank 1 gets rank 3, so
rank 2 is skipped, contradicting the claim that it receives the tie group's
rank + 1. -/
theorem composite_rank_not_dense :
    getCol (calculateCompositeIndex tieDf ["GDP"] [("GDP", 1)]) "Composite_Rank"
        = some [1, 1, 3]
    ∧ getCol (calculateCompositeIndex tieDf ["GDP"] [("GDP", 1)]) "Composite_Rank"
        ≠ some [1, 1, 2] := by
  with_unfolding_all decide

/-- C3 amended: `Composite_Rank` is competition ("min") ranking, not dense
ranking: within the ranks assigned by `calculate_composite_index`, the next
distinct strictly-lower `Composite_Happiness_Index` value after a tie group
receives the tie group's rank plus the *size* of the tie group (the count of
rows carrying the tied value), so rank numbers are skipped after every tie
group of size greater than one. -/
theorem composite_rank_min_skip (df : Table) (inds : List String)
    (w : List (String × ℚ)) (i j : ℕ)
    (hi : i < (compositeChi df inds w).length)
    (hj : j < (compositeChi df inds w).length)
    (hlt : (compositeChi df inds w).getD j 0 < (compositeChi df inds w).getD i 0)
    (hadj : ∀ u ∈ compositeChi df inds w,
      ¬((compositeChi df inds w).getD j 0 < u
        ∧ u < (compositeChi df inds w).getD i 0)) :
    getCol (calculateCompositeIndex df inds w) "Composite_Rank"
        = some ((compositeRank df inds w).map (fun n => (n : ℚ)))
    ∧ (compositeRank df inds w).getD j 0
        = (compositeRank df inds w).getD i 0
          + (compositeChi df inds w).countP
              (fun u => decide (u = (compositeChi df inds w).getD i 0)) := by
  refine ⟨getCol_calc_rank df inds w, ?_⟩
  unfold compositeRank
  rw [rank_getD _ i hi, rank_getD _ j hj]
  have hsplit := countP_split (compositeChi df inds w)
    (fun u => decide ((compositeChi df inds w).getD j 0 < u))
    (fun u => decide ((compositeChi df inds w).getD i 0 < u))
    (fun u => decide (u = (compositeChi df inds w).getD i 0))
    (fun u hu => by
      show decide ((compositeChi df inds w).getD j 0 < u)
          = (decide ((compositeChi df inds w).getD i 0 < u)
            || decide (u = (compositeChi df inds w).getD i 0))
      rw [← Bool.decide_or, decide_eq_decide]
      constructor
      · intro h
        rcases lt_or_le u ((compositeChi df inds w).getD i 0) with h2 | h2
        · exact absurd ⟨h, h2⟩ (hadj u hu)
        · rcases eq_or_lt_of_le h2 with h3 | h3
          · exact Or.inr h3.symm
          · exact Or.inl h3
      · intro h
        rcases h with h | h
        · exact lt_trans hlt h
        · rw [h]
          exact hlt)
    (fun u _ h => by
      rcases h with ⟨h1, h2⟩
      simp only [decide_eq_true_eq] at h1 h2
      rw [h2] at h1
      exact lt_irrefl _ h1)
  omega

/-- Witness for C3's amended claim on the tied table: the row with value 0
(row 2) gets rank 3 = rank 1 of the tie group + tie group size 2. -/
theorem composite_rank_min_skip_witness :
    (0 < (compositeChi tieDf ["GDP"] [("GDP", 1)]).length
      ∧ 2 < (compositeChi tieDf ["GDP"] [("GDP", 1)]).length
      ∧ (compositeChi tieDf ["GDP"] [("GDP", 1)]).getD 2 0
          < (compositeChi tieDf ["GDP"] [("GDP", 1)]).getD 0 0
      ∧ ∀ u ∈ compositeChi tieDf ["GDP"] [("GDP", 1)],
          ¬((compositeChi tieDf ["GDP"] [("GDP", 1)]).getD 2 0 < u
            ∧ u < (compositeChi tieDf ["GDP"] [("GDP", 1)]).getD 0 0))
    ∧ (getCol (calculateCompositeIndex tieDf ["GDP"] [("GDP", 1)])
            "Composite_Rank"
          = some ((compositeRank tieDf ["GDP"] [("GDP", 1)]).map (fun n => (n : ℚ)))
      ∧ (compositeRank tieDf ["GDP"] [("GDP", 1)]).getD 2 0
          = (compositeRank tieDf ["GDP"] [("GDP", 1)]).getD 0 0
            + (compositeChi tieDf ["GDP"] [("GDP", 1)]).countP
                (fun u => decide (u = (compositeChi tieDf ["GDP"] [("GDP", 1)]).getD 0 0))) :=
  ⟨⟨by with_unfolding_all decide, by with_unfolding_all decide,
      by with_unfolding_all decide, by with_unfolding_all decide⟩,
    composite_rank_min_skip tieDf ["GDP"] [("GDP", 1)] 0 2
      (by with_unfolding_all decide) (by with_unfolding_all decide)
      (by with_unfolding_all decide) (by with_unfolding_all decide)⟩

/-! ### Comparison with the original ranking -/

lemma hasCol_false_forall (df : Table) (n : String) :
    hasCol df n = false ↔ ∀ p ∈ df, p.1 ≠ n := by
  simp [hasCol]

lemma colNames_sort (t : Table) : colNames (sortByCompositeDesc t) = colNames t := by
  simp only [sortByCompositeDesc, colNames, List.map_map]
  apply List.map_congr_left
  intro p _
  rfl

lemma colNames_append (t u : Table) :
    colNames (t ++ u) = colNames t ++ colNames u := List.map_append _ t u

/-- A composite table lacking the `Region` column (one country, no region,
one indicator). -/
def noRegionDf : Table := [("Country", [0]), ("Happiness Score", [5]), ("GDP", [2])]

/-- C6 counterexample: on a composite table with no `Region` column,
`compare_with_original` raises a `KeyError` (modelled as `none`) at the
column selection `df[cols]`, instead of omitting the dependent output column
as the claim states. -/
theorem compare_missing_region_errors :
    hasCol (calculateCompositeIndex noRegionDf ["GDP"] [("GDP", 1)]) "Region" = false
    ∧ compareWithOriginal (calculateCompositeIndex noRegionDf ["GDP"] [("GDP", 1)])
        = none := by
  with_unfolding_all decide

/-- C6 amended: a missing optional `Happiness Rank` column is tolerated by
`compare_with_original`: no error is raised and the dependent output columns
`Original_Rank` and `Rank_Difference` are omitted from the result.  A missing
`Region` column, by contrast, is an error (see the counterexample): `Region`
is part of the unconditional five-column selection, alongside `Country` and
`Happiness Score`. -/
theorem compare_missing_happiness_rank_graceful (df : Table)
    (h1 : hasCol df "Country" = true) (h2 : hasCol df "Region" = true)
    (h3 : hasCol df "Happiness Score" = true)
    (h4 : hasCol df "Composite_Happiness_Index" = true)
    (h5 : hasCol df "Composite_Rank" = true)
    (h6 : hasCol df "Happiness Rank" = false) :
    ∃ t, compareWithOriginal df = some t
      ∧ colNames t = ["Country", "Region", "Happiness Score",
          "Composite_Happiness_Index", "Composite_Rank", "Score_Difference"] := by
  have hall : (["Country", "Region", "Happiness Score",
      "Composite_Happiness_Index", "Composite_Rank"]).all
        (fun c => hasCol df c) = true := by
    simp [List.all, h1, h2, h3, h4, h5]
  simp only [compareWithOriginal, hall, if_true, h6, Bool.false_eq_true, if_false]
  refine ⟨_, rfl, ?_⟩
  rw [colNames_sort]
  have hnames : colNames ((["Country", "Region", "Happiness Score",
      "Composite_Happiness_Index", "Composite_Rank"]).map
        (fun n => (n, colOf df n)))
      = ["Country", "Region", "Happiness Score",
          "Composite_Happiness_Index", "Composite_Rank"] := by
    simp [colNames, List.map_map]
  have hfree : hasCol ((["Country", "Region", "Happiness Score",
      "Composite_Happiness_Index", "Composite_Rank"]).map
        (fun n => (n, colOf df n))) "Score_Difference" = false := by
    rw [hasCol_false_forall]
    intro p hp
    rcases List.mem_map.mp hp with ⟨n, hn, he⟩
    subst he
    fin_cases hn <;> simp
  unfold setCol
  rw [hfree, if_neg (by simp), colNames_append, hnames]
  rfl

/-- Witness for C6's amended claim: a composite table with `Region` but no
`Happiness Rank`. -/
theorem compare_missing_happiness_rank_witness :
    (hasCol (calculateCompositeIndex
        [("Country", [0]), ("Region", [0]), ("Happiness Score", [5]), ("GDP", [2])]
        ["GDP"] [("GDP", 1)]) "Country" = true
      ∧ hasCol (calculateCompositeIndex
        [("Country", [0]), ("Region", [0]), ("Happiness Score", [5]), ("GDP", [2])]
        ["GDP"] [("GDP", 1)]) "Region" = true
      ∧ hasCol (calculateCompositeIndex
        [("Country", [0]), ("Region", [0]), ("Happiness Score", [5]), ("GDP", [2])]
        ["GDP"] [("GDP", 1)]) "Happiness Score" = true
      ∧ hasCol (calculateCompositeIndex
        [("Country", [0]), ("Region", [0]), ("Happiness Score", [5]), ("GDP", [2])]
        ["GDP"] [("GDP", 1)]) "Composite_Happiness_Index" = true
      ∧ hasCol (calculateCompositeIndex
        [("Country", [0]), ("Region", [0]), ("Happiness Score", [5]), ("GDP", [2])]
        ["GDP"] [("GDP", 1)]) "Composite_Rank" = true
      ∧ hasCol (calculateCompositeIndex
        [("Country", [0]), ("Region", [0]), ("Happiness Score", [5]), ("GDP", [2])]
        ["GDP"] [("GDP", 1)]) "Happiness Rank" = false)
    ∧ ∃ t, compareWithOriginal (calculateCompositeIndex
        [("Country", [0]), ("Region", [0]), ("Happiness Score", [5]), ("GDP", [2])]
        ["GDP"] [("GDP", 1)]) = some t
      ∧ colNames t = ["Country", "Region", "Happiness Score",
          "Composite_Happiness_Index", "Composite_Rank", "Score_Difference"] :=
  ⟨⟨by with_unfolding_all decide, by with_unfolding_all decide,
      by with_unfolding_all decide, by with_unfolding_all decide,
      by with_unfolding_all decide, by with_unfolding_all decide⟩,
    compare_missing_happiness_rank_graceful _
      (by with_unfolding_all decide) (by with_unfolding_all decide)
      (by with_unfolding_all decide) (by with_unfolding_all decide)
      (by with_unfolding_all decide) (by with_unfolding_all decide)⟩

/-! ### Frame: normalization only appends fresh normalized columns -/

lemma mem_setCol (t : Table) (n : String) (c : Col) (p : String × Col)
    (hp : p ∈ setCol t n c) : p.1 = n ∨ p ∈ t := by
  unfold setCol at hp
  by_cases h : hasCol t n
  · rw [if_pos h] at hp
    rcases List.mem_map.mp hp with ⟨q, hq, he⟩
    by_cases hqn : q.1 = n
    · rw [if_pos hqn] at he
      exact Or.inl (by rw [← he])
    · rw [if_neg hqn] at he
      exact Or.inr (he ▸ hq)
  · rw [if_neg h] at hp
    rcases List.mem_append.mp hp with hq | hq
    · exact Or.inr hq
    · rcases List.mem_singleton.mp hq with rfl
      exact Or.inl rfl

lemma setCol_append_fresh (df extra : Table) (n : String) (c : Col)
    (hdf : hasCol df n = false) :
    setCol (df ++ extra) n c = df ++ setCol extra n c := by
  have hcat : hasCol (df ++ extra) n = hasCol extra n := by
    simp only [hasCol, List.any_append]
    rw [show df.any (fun p => decide (p.1 = n)) = false from hdf]
    rfl
  unfold setCol
  by_cases hx : hasCol extra n
  · rw [hcat, if_pos hx, if_pos hx, List.map_append]
    congr 1
    have hmid : List.map (fun p => if p.1 = n then (n, c) else p) df
        = List.map id df := by
      apply List.map_congr_left
      intro p hp
      rw [if_neg ((hasCol_false_forall df n).mp hdf p hp)]
      rfl
    rw [hmid, List.map_id]
  · rw [hcat, if_neg hx, if_neg hx, List.append_assoc]

lemma normalize_foldl_extends (inds I : List String) (df : Table)
    (hsub : ∀ i ∈ inds, i ∈ I)
    (hdf : ∀ i ∈ I, hasCol df (i ++ "_normalized") = false)
    (extra : Table)
    (hextra : ∀ p ∈ extra, ∃ i ∈ I, p.1 = i ++ "_normalized") :
    ∃ extra2, inds.foldl normStep (df ++ extra) = df ++ extra2
      ∧ ∀ p ∈ extra2, ∃ i ∈ I, p.1 = i ++ "_normalized" := by
  induction inds generalizing extra with
  | nil => exact ⟨extra, rfl, hextra⟩
  | cons j rest ih =>
    rw [List.foldl_cons]
    have hsub' : ∀ k ∈ rest, k ∈ I :=
      fun k hk => hsub k (List.mem_cons_of_mem j hk)
    cases hg : getCol (df ++ extra) j with
    | none =>
      have hid : normStep (df ++ extra) j = df ++ extra := by
        unfold normStep
        rw [hg]
      rw [hid]
      exact ih hsub' extra hextra
    | some x =>
      have hstep : normStep (df ++ extra) j
          = setCol (df ++ extra) (j ++ "_normalized") (normCol x) := by
        unfold normStep
        rw [hg]
      rw [hstep, setCol_append_fresh df extra _ _
        (hdf j (hsub j (List.mem_cons_self j rest)))]
      apply ih hsub'
      intro p hp
      rcases mem_setCol extra _ _ p hp with h | h
      · exact ⟨j, hsub j (List.mem_cons_self j rest), h⟩
      · exact hextra p h

/-- C10: in this pure embedding no operation can mutate the caller's table
(the Python constructor and stages additionally copy before writing, so the
caller's frame is preserved there too); observably, `normalize_min_max`
returns the original table's columns unchanged, in their original order and
with their original row values, as a prefix, followed only by new
`<indicator>_normalized` columns.  The hypothesis asks that no normalized
name is already a column of the input, matching pandas' append-on-fresh-name
behaviour. -/
theorem normalize_pure_extension (df : Table) (inds : List String)
    (hfresh : ∀ i ∈ inds, hasCol df (i ++ "_normalized") = false) :
    ∃ extra, normalizeMinMax df inds = df ++ extra
      ∧ ∀ p ∈ extra, ∃ i ∈ inds, p.1 = i ++ "_normalized" := by
  have h := normalize_foldl_extends inds inds df (fun i hi => hi) hfresh []
    (by intro p hp; cases hp)
  rw [List.append_nil] at h
  exact h

/-- Witness for C10 on a one-indicator table. -/
theorem normalize_pure_extension_witness :
    (∀ i ∈ ["GDP"], hasCol [("GDP", [1, 2])] (i ++ "_normalized") = false)
    ∧ ∃ extra, normalizeMinMax [("GDP", [1, 2])] ["GDP"]
        = [("GDP", [1, 2])] ++ extra
      ∧ ∀ p ∈ extra, ∃ i ∈ ["GDP"], p.1 = i ++ "_normalized" :=
  ⟨by decide, normalize_pure_extension [("GDP", [1, 2])] ["GDP"] (by decide)⟩

/-- C4 counterexample: scaling the weight mapping `{GDP: 1}` by the positive
constant `c = 1.005` does change the composite index column: the scaled sum
1.005 lies inside the 0.01 tolerance window, so no renormalization happens
and every composite value is multiplied by 1.005. -/
theorem composite_not_scale_invariant :
    (0 : ℚ) < 201/200
    ∧ compositeWithWeights scenarioDf ["GDP"]
          (([("GDP", (1 : ℚ))]).map (fun p => (p.1, (201 : ℚ)/200 * p.2)))
        ≠ compositeWithWeights scenarioDf ["GDP"] [("GDP", (1 : ℚ))] := by
  with_unfolding_all decide

/-- C4 amended: the composite index column is invariant under scaling all
weights by a positive constant, provided the weight sum is nonzero and both
the original and the scaled sums deviate from 1.0 by more than 0.01, so that
both mappings actually get renormalized. -/
theorem composite_scale_invariant_when_renormalized (df : Table)
    (inds : List String) (w : List (String × ℚ)) (c : ℚ) (hc : 0 < c)
    (h0 : sumWeights w ≠ 0)
    (hw : |sumWeights w - 1| > 1 / 100)
    (hcw : |sumWeights (w.map (fun p => (p.1, c * p.2))) - 1| > 1 / 100) :
    compositeWithWeights df inds (w.map (fun p => (p.1, c * p.2)))
      = compositeWithWeights df inds w := by
  have hs : sumWeights (w.map (fun p => (p.1, c * p.2))) = c * sumWeights w :=
    sumWeights_smul c w
  have hc0 : sumWeights (w.map (fun p => (p.1, c * p.2))) ≠ 0 := by
    rw [hs]
    exact mul_ne_zero (ne_of_gt hc) h0
  have e1 := setWeights_of_sum_ne_zero (w.map (fun p => (p.1, c * p.2))) hc0
  rw [if_pos hcw] at e1
  have e2 := setWeights_of_sum_ne_zero w h0
  rw [if_pos hw] at e2
  unfold compositeWithWeights
  rw [e1, e2]
  have hlist : (w.map (fun p => (p.1, c * p.2))).map
        (fun p => (p.1, p.2 / sumWeights (w.map (fun p => (p.1, c * p.2)))))
      = w.map (fun p => (p.1, p.2 / sumWeights w)) := by
    rw [hs, List.map_map]
    apply List.map_congr_left
    intro p _
    show (p.1, c * p.2 / (c * sumWeights w)) = (p.1, p.2 / sumWeights w)
    rw [mul_div_mul_left _ _ (ne_of_gt hc)]
  rw [hlist]

/-- Witness for C4: weights `{GDP: 2}` scaled by `c = 3`; both sums (2 and 6)
are renormalized and the composite columns agree. -/
theorem composite_scale_invariant_witness :
    ((0 : ℚ) < 3 ∧ sumWeights [("GDP", (2 : ℚ))] ≠ 0
      ∧ |sumWeights [("GDP", (2 : ℚ))] - 1| > 1 / 100
      ∧ |sumWeights (([("GDP", (2 : ℚ))]).map (fun p => (p.1, (3 : ℚ) * p.2))) - 1|
          > 1 / 100)
    ∧ compositeWithWeights scenarioDf ["GDP"]
          (([("GDP", (2 : ℚ))]).map (fun p => (p.1, (3 : ℚ) * p.2)))
        = compositeWithWeights scenarioDf ["GDP"] [("GDP", (2 : ℚ))] :=
  ⟨⟨by norm_num, by with_unfolding_all decide, by with_unfolding_all decide,
      by with_unfolding_all decide⟩,
    composite_scale_invariant_when_renormalized scenarioDf ["GDP"]
      [("GDP", (2 : ℚ))] 3 (by norm_num) (by with_unfolding_all decide)
      (by with_unfolding_all decide) (by with_unfolding_all decide)⟩

/-- C8: on the 3-row table with Happiness Scores [7.5, 6.0, 4.0], GDP values
[1.5, 1.0, 0.5], single indicator GDP with weight 1.0, the pipeline yields
normalized GDP [1.0, 0.5, 0.0], composite index [10.0, 5.0, 0.0] and
composite ranks [1, 2, 3]. -/
theorem scenario_three_rows :
    getCol (calculateCompositeIndex scenarioDf ["GDP"] [("GDP", 1)]) "GDP_normalized"
        = some [1, 1/2, 0]
    ∧ getCol (calculateCompositeIndex scenarioDf ["GDP"] [("GDP", 1)])
          "Composite_Happiness_Index" = some [10, 5, 0]
    ∧ getCol (calculateCompositeIndex scenarioDf ["GDP"] [("GDP", 1)])
          "Composite_Rank" = some [1, 2, 3] := by
  with_unfolding_all decide
